import Mathlib

/-!
Verification of the minibson/microbson BSON codec (src/minibson.hpp,
src/microbson.hpp) against its specification.

The development is a shallow embedding:
* buffers are `List Nat` of byte values;
* C++ `int` values are `Int` (the programs under scrutiny stay far from
  overflow in every scenario exercised here; embedded 32-bit reads are
  decoded with explicit two's-complement semantics);
* the builder value tree (`minibson::NodeValue` and friends) is the
  inductive `Value`;
* reader-side functions that the C++ code runs as loops over raw pointers
  are modelled with explicit fuel; the result type distinguishes a normal
  boolean/typed result from an out-of-bounds memory access (`oob`) and
  from running out of fuel (`spin`).  A `spin`/fuel-out result corresponds
  to the C++ loop not having terminated within the given number of steps.
-/

namespace MiniBson

/-- Little-endian 4-byte encoding of a natural number (the low 32 bits),
modelling `*reinterpret_cast<int*>(buf) = n`. -/
def le32 (n : Nat) : List Nat :=
  [n % 256, n / 256 % 256, n / 65536 % 256, n / 16777216 % 256]

/-- Little-endian 8-byte encoding of a natural number (the low 64 bits),
modelling the memory image of an 8-byte value (`double` bit pattern or
`int64_t`). -/
def le64 (n : Nat) : List Nat :=
  [n % 256, n / 256 % 256, n / 65536 % 256, n / 16777216 % 256,
   n / 4294967296 % 256, n / 1099511627776 % 256,
   n / 281474976710656 % 256, n / 72057594037927936 % 256]

/-- Bytes written for an `int32_t` value: two's-complement little endian. -/
def int32bytes (v : Int) : List Nat := le32 (v % 4294967296).toNat

/-- Bytes written for an `int64_t` value: two's-complement little endian. -/
def int64bytes (v : Int) : List Nat := le64 (v % 18446744073709551616).toNat

/-- Reinterpret an unsigned 32-bit value as a signed `int32_t`. -/
def toSigned32 (n : Nat) : Int :=
  if n < 2147483648 then (n : Int) else (n : Int) - 4294967296

/-- Reinterpret an unsigned 64-bit value as a signed `int64_t`. -/
def toSigned64 (n : Nat) : Int :=
  if n < 9223372036854775808 then (n : Int) else (n : Int) - 18446744073709551616

/-- The bytes `std::strcpy` leaves in a zero-initialised region of
`s.length + 1` bytes: the portion of `s` before its first NUL byte, the
terminating NUL, and the remaining bytes still zero.  (`minibson`
serialisation always writes into a fresh zero-filled `std::vector`, and
every in-place write of a later field happens at offsets past this
region.) -/
def writeCStr (s : List Nat) : List Nat :=
  let w := s.takeWhile (fun b => b != 0)
  w ++ List.replicate (s.length + 1 - w.length) 0

/-- Decimal ASCII digits of a natural number, modelling
`std::to_string(i)` for the array index keys. -/
def natKey (n : Nat) : List Nat :=
  if h : n < 10 then [48 + n]
  else natKey (n / 10) ++ [48 + n % 10]
  decreasing_by exact Nat.div_lt_self (by omega) (by omega)

/-- The owned builder value tree: one constructor per `NodeValue` variant
of `minibson` (`NodeValueT<double/std::string/bool/void/int32_t/int64_t>`,
`Binary`, `Document`, `Array`).  A `double` is carried as its 64-bit IEEE
bit pattern, since the code only ever moves those 8 bytes around. -/
inductive Value where
  | vdouble (bits : Nat)
  | vstring (s : List Nat)
  | vbool (b : Bool)
  | vnull
  | vint32 (v : Int)
  | vint64 (v : Int)
  | vbinary (c : List Nat)
  | vdoc (fields : List (List Nat × Value))
  | varr (elems : List Value)

/-- The wire type byte of a builder value (`NodeValueT<T>::type()`,
`bson::NodeType`). -/
def tagByte : Value → Nat
  | .vdouble _ => 1
  | .vstring _ => 2
  | .vdoc _ => 3
  | .varr _ => 4
  | .vbinary _ => 5
  | .vbool _ => 8
  | .vnull => 10
  | .vint32 _ => 16
  | .vint64 _ => 18

mutual

/-- Model of `NodeValueT<T>::getSerializedSize()` / `Binary::getSerializedSize()` /
`Document::getSerializedSize()` / `Array::getSerializedSize()` for one
value. -/
def valueSize : Value → Nat
  | .vdouble _ => 8
  | .vstring s => 4 + s.length + 1
  | .vbool _ => 1
  | .vnull => 0
  | .vint32 _ => 4
  | .vint64 _ => 8
  | .vbinary c => 4 + 1 + c.length
  | .vdoc fs => 4 + fieldsSize fs + 1
  | .varr es => 4 + arrFieldsSize 0 es + 1

/-- Sum over a document's fields of `1 (type) + key size + 1 (NUL) +
value size`, as accumulated by `Document::getSerializedSize()`. -/
def fieldsSize : List (List Nat × Value) → Nat
  | [] => 0
  | (k, v) :: r => 1 + k.length + 1 + valueSize v + fieldsSize r

/-- Same for an array, whose keys are the decimal indices starting at the
given position (`Array::getSerializedSize()`). -/
def arrFieldsSize : Nat → List Value → Nat
  | _, [] => 0
  | i, v :: r => 1 + (natKey i).length + 1 + valueSize v + arrFieldsSize (i + 1) r

end

/-- Model of `Document::getSerializedSize()`. -/
def docSize (fs : List (List Nat × Value)) : Nat := 4 + fieldsSize fs + 1

/-- Model of `Array::getSerializedSize()`. -/
def arrSize (es : List Value) : Nat := 4 + arrFieldsSize 0 es + 1

mutual

/-- The bytes a value's `serialize(buf, len)` leaves in a fresh
zero-initialised buffer region of `valueSize` bytes.  `Binary::serialize`
additionally writes one NUL byte past this region; that byte is always
overwritten by the next write of the enclosing serialisation (the next
field's type byte or the document terminator), so it does not appear in
the final byte image; it is modelled separately by
`binaryWritePositions`. -/
def valueBytes : Value → List Nat
  | .vdouble bits => le64 bits
  | .vstring s => le32 ((s.length + 1) % 4294967296) ++ writeCStr s
  | .vbool b => [if b then 1 else 0]
  | .vnull => []
  | .vint32 v => int32bytes v
  | .vint64 v => int64bytes v
  | .vbinary c => le32 (c.length % 4294967296) ++ [0] ++ c
  | .vdoc fs => le32 (4 + fieldsSize fs + 1) ++ fieldsBytes fs ++ [0]
  | .varr es => le32 (4 + arrFieldsSize 0 es + 1) ++ arrFieldsBytes 0 es ++ [0]

/-- The per-field bytes of `Document::serialize`: type byte, key via
`strcpy`, then the value's own serialisation. -/
def fieldsBytes : List (List Nat × Value) → List Nat
  | [] => []
  | (k, v) :: r => tagByte v :: (writeCStr k ++ valueBytes v) ++ fieldsBytes r

/-- The per-field bytes of `Array::serialize`, with decimal index keys. -/
def arrFieldsBytes : Nat → List Value → List Nat
  | _, [] => []
  | i, v :: r => tagByte v :: (writeCStr (natKey i) ++ valueBytes v) ++ arrFieldsBytes (i + 1) r

end

/-- Model of `Document::serialize()`: length prefix, fields, terminator. -/
def docBytes (fs : List (List Nat × Value)) : List Nat :=
  le32 (docSize fs) ++ fieldsBytes fs ++ [0]

/-- Model of `Array::serialize()`. -/
def arrBytes (es : List Value) : List Nat :=
  le32 (arrSize es) ++ arrFieldsBytes 0 es ++ [0]

/-- First field of a builder document whose key equals `k`
(`std::map::find`; the builder keeps keys unique, so first match is the
match). -/
def lookupF : List (List Nat × Value) → List Nat → Option Value
  | [], _ => none
  | (k0, v0) :: r, k => if k0 = k then some v0 else lookupF r k

/-- Byte-wise lexicographic strict order on keys: the comparison
`std::less<std::string>` used by the builder's `std::map` (character
traits compare as unsigned char). -/
def keyLtb : List Nat → List Nat → Bool
  | [], [] => false
  | [], _ :: _ => true
  | _ :: _, [] => false
  | a :: as, b :: bs => if a < b then true else if b < a then false else keyLtb as bs

/-- Model of `Document::set` = `std::map::insert_or_assign`: insertion into the
key-sorted field list, replacing the value when the key is present. -/
def setF : List (List Nat × Value) → List Nat → Value → List (List Nat × Value)
  | [], k, v => [(k, v)]
  | (k0, v0) :: r, k, v =>
    if keyLtb k k0 then (k, v) :: (k0, v0) :: r
    else if keyLtb k0 k then (k0, v0) :: setF r k v
    else (k0, v) :: r

/-! ### Well-formedness of builder trees

`wfValue` / `wfFields` / `wfElems` are not code from the repository: they
express the side conditions under which the serialised image of a builder
tree is faithful (keys nonempty and NUL-free, string values NUL-free, all
bytes below 256, machine integers in range, every nested structure's
serialised size below `2^31` so that its embedded `int32` length prefix
re-reads exactly).  These are the hypotheses of the amended round-trip
statement. -/

def wfKey (k : List Nat) : Bool :=
  !k.isEmpty && k.all (fun b => 0 < b && b < 256)

mutual

def wfValue : Value → Bool
  | .vdouble bits => bits < 18446744073709551616
  | .vstring s => s.all (fun b => 0 < b && b < 256) && s.length + 1 < 2147483648
  | .vbool _ => true
  | .vnull => true
  | .vint32 v => -2147483648 ≤ v && v < 2147483648
  | .vint64 v => -9223372036854775808 ≤ v && v < 9223372036854775808
  | .vbinary c => c.all (fun b => b < 256) && 4 + 1 + c.length < 2147483648
  | .vdoc fs => wfFields fs && 4 + fieldsSize fs + 1 < 2147483648
  | .varr es => wfElems 0 es && 4 + arrFieldsSize 0 es + 1 < 2147483648

def wfFields : List (List Nat × Value) → Bool
  | [] => true
  | (k, v) :: r => wfKey k && wfValue v && wfFields r

def wfElems : Nat → List Value → Bool
  | _, [] => true
  | i, v :: r => wfValue v && wfElems (i + 1) r

end

/-! ### The IEEE-754 conversion used by the Scalar wildcard

`Document::get<bson::Scalar>` and `Array::at<bson::Scalar>` return an
`int32_t`/`int64_t` member as a `double`.  `doubleOfInt` is the exact
bit-level model of that C++ integer-to-double conversion (round to
nearest, ties to even; never overflows for 64-bit inputs). -/

/-- Floor of the base-2 logarithm, by structural recursion on a 64-step
fuel (enough for any 64-bit input, and kernel-computable). -/
def log2fuel : Nat → Nat → Nat
  | 0, _ => 0
  | f + 1, m => if m ≤ 1 then 0 else log2fuel f (m / 2) + 1

def doubleOfInt (v : Int) : Nat :=
  if v = 0 then 0
  else
    let sign : Nat := if v < 0 then 9223372036854775808 else 0
    let m : Nat := v.natAbs
    let e : Nat := log2fuel 64 m
    if e ≤ 52 then
      sign + (e + 1023) * 4503599627370496 + (m * 2 ^ (52 - e) - 4503599627370496)
    else
      let shift := e - 52
      let q := m / 2 ^ shift
      let r := m % 2 ^ shift
      let half := 2 ^ (shift - 1)
      let q2 := if half < r || (r = half && q % 2 = 1) then q + 1 else q
      if q2 = 9007199254740992 then
        sign + (e + 1024) * 4503599627370496
      else
        sign + (e + 1023) * 4503599627370496 + (q2 - 4503599627370496)

/-! ### Builder-side accessors (minibson) -/

/-- Result of a builder typed accessor: the stored value, a thrown
`bson::OutOfRange` or `bson::BadCast`, or an out-of-bounds vector access
(undefined behaviour in the C++). -/
inductive BRes where
  | bgot (v : Value)
  | boutOfRange
  | bbadCast
  | bub

/-- The request types a caller can instantiate the typed accessors with:
one per recognised wire tag (several native C++ types share a tag and
trait; their decodings agree byte for byte). -/
inductive Req where
  | rdouble | rstring | rdoc | rarr | rbin | rbool | rnull | rint32 | rint64
deriving DecidableEq, Repr

/-- Model of `type_traits<T>::node_type_code`. -/
def tagOfReq : Req → Nat
  | .rdouble => 1
  | .rstring => 2
  | .rdoc => 3
  | .rarr => 4
  | .rbin => 5
  | .rbool => 8
  | .rnull => 10
  | .rint32 => 16
  | .rint64 => 18

/-- The request type matching a stored value's own tag. -/
def reqOf : Value → Req
  | .vdouble _ => .rdouble
  | .vstring _ => .rstring
  | .vdoc _ => .rdoc
  | .varr _ => .rarr
  | .vbinary _ => .rbin
  | .vbool _ => .rbool
  | .vnull => .rnull
  | .vint32 _ => .rint32
  | .vint64 _ => .rint64

/-- Model of `size_t(i)` for a C++ `int i`: conversion to an unsigned 64-bit
value. -/
def sizeTOf (i : Int) : Nat := (i % 18446744073709551616).toNat

/-- Model of `minibson::Document::get<T>(key)`: map lookup, then tag check. -/
def docGet (fs : List (List Nat × Value)) (k : List Nat) (T : Req) : BRes :=
  match lookupF fs k with
  | none => .boutOfRange
  | some v => if tagByte v = tagOfReq T then .bgot v else .bbadCast

/-- Model of `minibson::Array::at<T>(i)`: the source guards with
`arr_.size() < size_t(i)` (not `<=`), then reads `arr_[i]`; the read at
`i = size()` is out of bounds and modelled as `bub`. -/
def arrAt (a : List Value) (i : Int) (T : Req) : BRes :=
  if a.length < sizeTOf i then .boutOfRange
  else
    match a[sizeTOf i]? with
    | none => .bub
    | some v => if tagByte v = tagOfReq T then .bgot v else .bbadCast

/-- Model of `minibson::Array::contains<T>(i)`: same `size() < size_t(i)` guard;
`none` marks the out-of-bounds `arr_[i]` read at `i = size()`. -/
def arrContains (a : List Value) (i : Int) (T : Req) : Option Bool :=
  if a.length < sizeTOf i then some false
  else
    match a[sizeTOf i]? with
    | none => none
    | some v => some (tagByte v = tagOfReq T)

/-- Model of `minibson::Array::erase(i)`: the element is erased when
`arr_.size() > size_t(i)`, and then `bson::OutOfRange` is thrown
unconditionally (the function has no return path that does not throw).
The result is the array contents after the call together with whether
`OutOfRange` was thrown. -/
def arrErase (a : List Value) (i : Int) : List Value × Bool :=
  ((if sizeTOf i < a.length then a.eraseIdx (sizeTOf i) else a), true)

/-- Result of a Scalar-wildcard request: the `double` bit pattern, or a
thrown error, or an out-of-bounds read. -/
inductive SRes where
  | sbits (bits : Nat)
  | soutOfRange
  | sbadCast
  | soob
deriving DecidableEq, Repr

/-- The value a Scalar request yields from a stored numeric value:
a `double` member's own bits, an `int32_t`/`int64_t` member converted to
`double`; any other variant is a `BadCast`. -/
def scalarOf : Value → SRes
  | .vdouble bits => .sbits bits
  | .vint32 v => .sbits (doubleOfInt v)
  | .vint64 v => .sbits (doubleOfInt v)
  | _ => .sbadCast

/-- Model of `minibson::Document::get<bson::Scalar>(key)`. -/
def docGetScalar (fs : List (List Nat × Value)) (k : List Nat) : SRes :=
  match lookupF fs k with
  | none => .soutOfRange
  | some v => scalarOf v

/-- Model of `minibson::Array::at<bson::Scalar>(i)`: this accessor (unlike the
generic `at<T>`) guards with `size_t(i) >= arr_.size()`. -/
def arrAtScalar (a : List Value) (i : Int) : SRes :=
  if a.length ≤ sizeTOf i then .soutOfRange
  else
    match a[sizeTOf i]? with
    | none => .soob
    | some v => scalarOf v

/-! ### `Binary::serialize` write footprint (for the length invariant)

`minibson::Binary::serialize(buf, bufSize)` writes the 4 length bytes,
the subtype byte, the `size` content bytes, and then one more NUL at
`buf + 5 + size` — one byte past the `getSerializedSize()` region. -/

/-- The buffer offsets written by `Binary::serialize`, in write order. -/
def binaryWritePositions (c : List Nat) : List Nat :=
  [0, 1, 2, 3] ++ [4] ++ (List.range c.length).map (fun j => 5 + j) ++ [5 + c.length]

/-- Model of `Binary::getSerializedSize()`. -/
def binarySerializedSize (c : List Nat) : Nat := 4 + 1 + c.length

/-! ### Reader-side primitives (microbson)

A reader `microbson::Document` is `(data_, bufferLength_)`; `data_` may
be null (the default constructor), modelled as `Option (List Nat)`.  A
nested document view points into the middle of the parent buffer, so its
byte list is a `drop` of the parent's and its `bufferLength_` is the
nested declared length read from the wire.  Reads that the C++ performs
on memory outside the modelled buffer yield `none`/`oob` results. -/

/-- Model of the read `data_[i]` for a possibly negative index. -/
def byteAtI (B : List Nat) (i : Int) : Option Nat :=
  if 0 ≤ i then B[i.toNat]? else none

/-- Read a NUL-terminated byte string starting at offset `i`
(`Node::key()` and the string converter build a `std::string_view` from
a `const char*`); `none` when no NUL byte exists before the end of the
modelled memory — the C++ would read past the buffer. -/
def cstrAtI (B : List Nat) (i : Int) : Option (List Nat) :=
  if 0 ≤ i then
    let r := B.drop i.toNat
    if r.any (fun b => b == 0) then some (r.takeWhile (fun b => b != 0)) else none
  else none

/-- Model of `*reinterpret_cast<const int32_t*>(data_ + i)`, unsigned part. -/
def readU32 (B : List Nat) (i : Int) : Option Nat := do
  let b0 ← byteAtI B i
  let b1 ← byteAtI B (i + 1)
  let b2 ← byteAtI B (i + 2)
  let b3 ← byteAtI B (i + 3)
  pure (b0 + 256 * b1 + 65536 * b2 + 16777216 * b3)

/-- Model of `*reinterpret_cast<const int32_t*>(data_ + i)` as a signed value. -/
def readI32 (B : List Nat) (i : Int) : Option Int := (readU32 B i).map toSigned32

/-- The 8 bytes at offset `i` as an unsigned 64-bit value (the bit
pattern of a `double`, or the unsigned part of an `int64_t`). -/
def readU64 (B : List Nat) (i : Int) : Option Nat := do
  let lo ← readU32 B i
  let hi ← readU32 B (i + 4)
  pure (lo + 4294967296 * hi)

/-- Model of `*reinterpret_cast<const int64_t*>(data_ + i)`. -/
def readI64 (B : List Nat) (i : Int) : Option Int := (readU64 B i).map toSigned64

/-- Model of `microbson::Node::length()`: `1 + key size + 1 + payload length`,
with the source's two sentinel cases returning 0 (empty key, unknown
type byte).  The embedded `int32` size fields of string/binary/document
nodes are read as signed values, so the result can be negative. -/
def nodeLengthI (B : List Nat) (o : Int) : Option Int :=
  match cstrAtI B (o + 1) with
  | none => none
  | some k =>
    let base : Int := 1 + k.length + 1
    if base = 2 then some 0
    else
      match byteAtI B o with
      | none => none
      | some t =>
        if t = 1 then some (base + 8)
        else if t = 3 then (readI32 B (o + base)).map (fun s => base + s)
        else if t = 4 then (readI32 B (o + base)).map (fun s => base + s)
        else if t = 2 then (readI32 B (o + base)).map (fun s => base + 4 + s)
        else if t = 5 then (readI32 B (o + base)).map (fun s => base + 4 + s + 1)
        else if t = 8 then some (base + 1)
        else if t = 10 then some base
        else if t = 16 then some (base + 4)
        else if t = 18 then some (base + 8)
        else some 0

/-- The nine recognised wire type bytes; anything else takes the
`default` branch of the validation switch. -/
def recognizedTag (t : Nat) : Bool :=
  t = 1 || t = 2 || t = 3 || t = 4 || t = 5 || t = 8 || t = 10 || t = 16 || t = 18

/-- Values of `MINIMAL_SIZE_OF_BSON_*_NODE` for each recognised tag, as checked by
`Node::valid<T>(maxLength)`. -/
def minNodeSize : Nat → Int
  | 1 => 11
  | 2 => 5
  | 3 => 8
  | 4 => 8
  | 5 => 8
  | 8 => 4
  | 10 => 3
  | 16 => 7
  | 18 => 11
  | _ => 0

/-- Result of running the validator: a boolean, an out-of-bounds memory
access, or failure to terminate within the supplied fuel. -/
inductive VRes where
  | vtrue
  | vfalse
  | voob
  | vspin
deriving DecidableEq, Repr

mutual

/-- Model of `microbson::Document::valid()`.  A null `data_` skips the envelope
check and iterates over nothing (returns true).  Otherwise: envelope
(`bufferLength_ >= 5`, declared length within `bufferLength_`, last byte
of the declared document is NUL), then the field loop from offset 4 up
to the terminator offset `length() - 1`. -/
def validDoc : Nat → Option (List Nat) → Int → VRes
  | 0, _, _ => .vspin
  | _ + 1, none, _ => .vtrue
  | f + 1, some B, bufLen =>
    if bufLen < 5 then .vfalse
    else
      match readI32 B 0 with
      | none => .voob
      | some len =>
        if bufLen < len then .vfalse
        else
          match byteAtI B (len - 1) with
          | none => .voob
          | some b =>
            if b ≠ 0 then .vfalse
            else validLoop f B (len - 1) 4

/-- The field loop of `Document::valid()`: at each offset, dispatch on
the type byte (unknown → false), run `Node::valid<T>(maxLength)` with
`maxLength` the distance to the terminator (minimum node size for the
tag, then `length()` nonzero and at most `maxLength`), recurse into
nested documents/arrays, then advance the iterator by `length()`. -/
def validLoop : Nat → List Nat → Int → Int → VRes
  | 0, _, _, _ => .vspin
  | f + 1, B, endOff, o =>
    if o = endOff then .vtrue
    else
      match byteAtI B o with
      | none => .voob
      | some t =>
        if !recognizedTag t then .vfalse
        else
          if endOff - o < minNodeSize t then .vfalse
          else
            match nodeLengthI B o with
            | none => .voob
            | some len =>
              if len = 0 || endOff - o < len then .vfalse
              else
                if t = 3 || t = 4 then
                  match cstrAtI B (o + 1) with
                  | none => .voob
                  | some k =>
                    let payload : Int := o + 1 + k.length + 1
                    match readI32 B payload with
                    | none => .voob
                    | some declLen =>
                      match validDoc f (some (B.drop payload.toNat)) declLen with
                      | .vtrue => validLoop f B endOff (o + len)
                      | r => r
                else validLoop f B endOff (o + len)

end

/-- The value of a reader node as seen through `Node::value<T>` and the
`type_traits` converters.  Nested document/array values and binary
values are zero-copy views; they are carried as the byte region the
view designates. -/
inductive RVal where
  | rdouble (bits : Nat)
  | rstr (s : List Nat)
  | rdocB (b : List Nat)
  | rarrB (b : List Nat)
  | rbinB (c : List Nat)
  | rboolV (b : Bool)
  | rnullV
  | rint32V (v : Int)
  | rint64V (v : Int)

/-- Result of a reader typed lookup: a value, a thrown `OutOfRange` or
`BadCast`, an out-of-bounds access, or non-termination of the iterator
loop. -/
inductive GetRes where
  | got (rv : RVal)
  | goutOfRange
  | gbadCast
  | goob
  | gspin

/-- The reader-side value corresponding to a builder value: scalars and
strings read back as themselves; a nested document/array reads back as a
zero-copy view over exactly the bytes of the builder subtree's own
serialisation; a binary value reads back as a view over its content
bytes.  This is the correspondence in which the round-trip equation
`Reader(T.serialize()).get<X>(k) == T.get<X>(k)` is stated. -/
def rvalOf : Value → RVal
  | .vdouble bits => .rdouble bits
  | .vstring s => .rstr s
  | .vbool b => .rboolV b
  | .vnull => .rnullV
  | .vint32 v => .rint32V v
  | .vint64 v => .rint64V v
  | .vbinary c => .rbinB c
  | .vdoc fs => .rdocB (docBytes fs)
  | .varr es => .rarrB (arrBytes es)

/-- The behaviour of `microbson::Document::get<T>(key)` as the reader
specification states it: the typed value of the first field whose key
equals the argument, `OutOfRange` when no field has that key, `BadCast`
when the first such field's wire type differs from `T`'s tag. -/
def getSpec (fs : List (List Nat × Value)) (key : List Nat) (T : Req) : GetRes :=
  match lookupF fs key with
  | none => .goutOfRange
  | some v => if tagByte v = tagOfReq T then .got (rvalOf v) else .gbadCast

/-- Model of `microbson::Node::value<T>()` at offset `o`: tag check (`BadCast` on
mismatch), then the trait converter on the payload bytes following the
key.  For document/array the converter builds a view of the declared
length at the payload; for binary, a pointer/length pair past the size
and subtype bytes. -/
def nodeValueAt (B : List Nat) (o : Int) (T : Req) : GetRes :=
  match byteAtI B o with
  | none => .goob
  | some t =>
    if t ≠ tagOfReq T then .gbadCast
    else
      match cstrAtI B (o + 1) with
      | none => .goob
      | some k =>
        let payload : Int := o + 1 + k.length + 1
        match T with
        | .rdouble =>
          match readU64 B payload with
          | none => .goob
          | some n => .got (.rdouble n)
        | .rint32 =>
          match readI32 B payload with
          | none => .goob
          | some v => .got (.rint32V v)
        | .rint64 =>
          match readI64 B payload with
          | none => .goob
          | some v => .got (.rint64V v)
        | .rstring =>
          match cstrAtI B (payload + 4) with
          | none => .goob
          | some s => .got (.rstr s)
        | .rbool =>
          match byteAtI B payload with
          | none => .goob
          | some b => .got (.rboolV (b ≠ 0))
        | .rnull => .got .rnullV
        | .rdoc =>
          match readI32 B payload with
          | none => .goob
          | some l => .got (.rdocB ((B.drop payload.toNat).take l.toNat))
        | .rarr =>
          match readI32 B payload with
          | none => .goob
          | some l => .got (.rarrB ((B.drop payload.toNat).take l.toNat))
        | .rbin =>
          match readI32 B payload with
          | none => .goob
          | some l => .got (.rbinB ((B.drop (payload.toNat + 5)).take l.toNat))

/-- The `std::find_if` loop of `microbson::Document::get<T>`: test the
current node's key, return its typed value on the first match, otherwise
advance by `Node::length()`.  A zero `length()` leaves the iterator in
place; the loop then re-tests the identical state forever, so this is
definite non-termination (`gspin`). -/
def getLoop (B : List Nat) (endOff : Int) (key : List Nat) (T : Req) :
    Nat → Int → GetRes
  | 0, _ => .gspin
  | f + 1, o =>
    if o = endOff then .goutOfRange
    else
      match cstrAtI B (o + 1) with
      | none => .goob
      | some k =>
        if k = key then nodeValueAt B o T
        else
          match nodeLengthI B o with
          | none => .goob
          | some len =>
            if len = 0 then .gspin
            else getLoop B endOff key T f (o + len)

/-- Model of `microbson::Document::get<T>(key)` over a non-null buffer: iterate
from offset 4 to the terminator offset `length() - 1`; `OutOfRange` when
no field's key matches. -/
def microGet (B : List Nat) (key : List Nat) (T : Req) (fuel : Nat) : GetRes :=
  match readI32 B 0 with
  | none => .goob
  | some len => getLoop B (len - 1) key T fuel 4

/-- Model of `microbson::Node::value<bson::Scalar>()`: double, int32 and int64
payloads are returned as a `double` (integers converted); every other
type byte throws `BadCast`. -/
def nodeScalarAt (B : List Nat) (o : Int) : SRes :=
  match byteAtI B o with
  | none => .soob
  | some t =>
    match cstrAtI B (o + 1) with
    | none => .soob
    | some k =>
      let payload : Int := o + 1 + k.length + 1
      if t = 1 then
        match readU64 B payload with
        | none => .soob
        | some n => .sbits n
      else if t = 16 then
        match readI32 B payload with
        | none => .soob
        | some v => .sbits (doubleOfInt v)
      else if t = 18 then
        match readI64 B payload with
        | none => .soob
        | some v => .sbits (doubleOfInt v)
      else .sbadCast

/-- Model of `microbson::Document::empty()`. -/
def mempty (d : Option (List Nat)) : Bool := d.isNone

/-- Model of `microbson::Document::length()`: 0 on a null `data_`, otherwise the
`int32` at offset 0. -/
def mlength (d : Option (List Nat)) : Option Int :=
  match d with
  | none => some 0
  | some B => readI32 B 0

/-- Model of `microbson::Document::begin()`: the null iterator on an empty view,
otherwise offset 4.  The outer `Option` is for out-of-bounds reads (none
happen here), the inner for the null iterator. -/
def mbegin (d : Option (List Nat)) : Option (Option Int) :=
  match d with
  | none => some none
  | some _ => some (some 4)

/-- Model of `microbson::Document::end()`: the null iterator on an empty view,
otherwise offset `length() - 1`. -/
def mend (d : Option (List Nat)) : Option (Option Int) :=
  match d with
  | none => some none
  | some B => (readI32 B 0).map (fun l => some (l - 1))

/-- The `std::distance(begin(), end())` loop behind
`Document::size()`, advancing by `Node::length()` and counting. -/
def msizeLoop (B : List Nat) (endOff : Int) : Nat → Int → Nat → Option Nat
  | 0, _, _ => none
  | f + 1, o, acc =>
    if o = endOff then some acc
    else
      match nodeLengthI B o with
      | none => none
      | some len =>
        if len = 0 then none
        else msizeLoop B endOff f (o + len) (acc + 1)

/-- Model of `microbson::Document::size()`: 0 on a null view (begin = end =
null iterator), otherwise the counting walk. -/
def msize (d : Option (List Nat)) (fuel : Nat) : Option Nat :=
  match d with
  | none => some 0
  | some B =>
    match readI32 B 0 with
    | none => none
    | some len => msizeLoop B (len - 1) fuel 4 0

/-! ## Concrete buffers exhibiting validator weaknesses

All three buffers below exploit the same omission: `Node::length()`
reads embedded `int32` size fields as signed values and
`Node::valid<T>` only rejects a length that is zero or greater than
`maxLength`, so a *negative* field length passes validation. -/

/-- A 27-byte well-delimited buffer (declared length 27, final NUL):
binary field "a" at offset 4, then a string field "k" at offset 15 whose
declared size is −10, making its `length()` −3; the iterator steps
backwards to offset 12, where an int64 field "z" (spelled inside the
binary payload) of length 11 jumps to the null field "q" at offset 23,
landing exactly on the terminator offset 26.  Every node check passes,
so `valid()` returns true. -/
def negLenBuf : List Nat :=
  [27, 0, 0, 0,
   5, 97, 0, 3, 0, 0, 0, 0,
   18, 122, 0,
   2, 107, 0, 246, 255, 255, 255,
   0,
   10, 113, 0,
   0]

/-- An 18-byte buffer on which `valid()` never terminates: null fields
"a" at offset 4 and "b" at offset 7 (length 3 each), then a string field
"c" at offset 10 with declared size −13, i.e. `length()` −6, which sends
the iterator back to offset 4.  The offsets cycle 4 → 7 → 10 → 4 forever
and never hit the terminator offset 17. -/
def cycleBuf : List Nat :=
  [18, 0, 0, 0,
   10, 97, 0,
   10, 98, 0,
   2, 99, 0, 243, 255, 255, 255,
   0]

/-- A 16-byte buffer (declared document length 10) that passes
`valid()`: its single string field "abcd" has declared size −5, so its
`length()` is 5 = `maxLength` and the walk ends exactly on the
terminator.  But the string payload starts at offset 14, past the
declared document, and no NUL byte follows before the end of the
buffer, so the string converter of `get` scans out of bounds. -/
def oobGetBuf : List Nat :=
  [10, 0, 0, 0,
   2, 97, 98, 99, 100, 0,
   251, 255, 255, 255,
   65, 65]

/-- The builder document `{"" : null, "a" : int32 1}`: legal to build
and to serialise, but its empty-key field serialises to a node whose
reader-side `length()` is 0, wedging the reader's iterator. -/
def emptyKeyDoc : List (List Nat × Value) := [([], .vnull), ([97], .vint32 1)]

/-! ## Claim analyses -/

/-- C2 (counterexample to the claimed length invariant, general form):
for every `Binary` value, `Binary::serialize` writes
`getSerializedSize() + 1` distinct buffer offsets — the positions it
writes are `0 … getSerializedSize()` inclusive, i.e. it writes one NUL
byte at offset `getSerializedSize()`, one past its declared region (out
of bounds when the capacity equals `getSerializedSize()` exactly). -/
theorem c2_binary_writes_one_byte_past_declared_size (c : List Nat) :
    (binaryWritePositions c).length = binarySerializedSize c + 1 ∧
    binarySerializedSize c ∈ binaryWritePositions c := by
  constructor
  · simp [binaryWritePositions, binarySerializedSize]
    omega
  · simp [binaryWritePositions, binarySerializedSize]

/-- C3: the code violates the validation-soundness claim.  `valid()`
returns true on `negLenBuf` even though its string field at offset 15
declares the size −10 and has computed `length()` −3 — a declared
length that does not "fit within the remaining distance to the
terminator" under any reading, and one that makes the field iterator
walk backwards. -/
theorem c3_valid_accepts_negative_field_length :
    validDoc 40 (some negLenBuf) 27 = .vtrue ∧
    readI32 negLenBuf 18 = some (-10) ∧
    nodeLengthI negLenBuf 15 = some (-3) :=
  ⟨rfl, rfl, rfl⟩

/-- C8: the code violates the validator-totality claim.  On `cycleBuf`
the field iterator of `valid()` advances by −6 at offset 10 and cycles
4 → 7 → 10 → 4: for every fuel bound the modelled loop fails to
terminate, i.e. the C++ `valid()` loops forever.  (Helper for the C8
theorem.) -/
theorem cycleBuf_loop_spins (f : Nat) :
    validLoop f cycleBuf 17 4 = .vspin ∧
    validLoop f cycleBuf 17 7 = .vspin ∧
    validLoop f cycleBuf 17 10 = .vspin := by
  induction f with
  | zero => exact ⟨rfl, rfl, rfl⟩
  | succ f ih =>
    refine ⟨?_, ?_, ?_⟩
    · exact (show validLoop (f + 1) cycleBuf 17 4 = validLoop f cycleBuf 17 7 from rfl).trans
        ih.2.1
    · exact (show validLoop (f + 1) cycleBuf 17 7 = validLoop f cycleBuf 17 10 from rfl).trans
        ih.2.2
    · exact (show validLoop (f + 1) cycleBuf 17 10 = validLoop f cycleBuf 17 4 from rfl).trans
        ih.1

/-- C8: `valid()` does not terminate on `cycleBuf` — for every fuel
bound the model still has not returned — because the string field at
offset 10 has computed `length()` −6, so the iterator does not advance
by a strictly positive field length as the claim requires. -/
theorem c8_validator_never_terminates (f : Nat) :
    validDoc f (some cycleBuf) 18 = .vspin ∧ nodeLengthI cycleBuf 10 = some (-6) := by
  refine ⟨?_, rfl⟩
  cases f with
  | zero => rfl
  | succ f =>
    exact (show validDoc (f + 1) (some cycleBuf) 18 = validLoop f cycleBuf 17 4 from rfl).trans
      (cycleBuf_loop_spins f).1

/-- C7: the code violates the reader-get error-semantics claim.
`oobGetBuf` passes `valid()`, its first (and only) field has key "abcd"
and wire type string — so by the claim `get<std::string_view>("abcd")`
must return the typed value — yet the get reads out of bounds: the
string payload lies past the declared document and no terminating NUL
exists inside the buffer. -/
theorem c7_get_overruns_valid_buffer :
    validDoc 40 (some oobGetBuf) 16 = .vtrue ∧
    microGet oobGetBuf [97, 98, 99, 100] .rstring 40 = .goob :=
  ⟨rfl, rfl⟩

/-- C9: a default-constructed reader document (null data, length 0) is a
well-defined empty view: `empty()` is true, `length()` is 0, `size()` is
0, `begin() == end()` (both the null iterator), and `valid()` returns
true. -/
theorem c9_default_reader_document_empty_view :
    mempty none = true ∧ mlength none = some 0 ∧ msize none 1 = some 0 ∧
    mbegin none = mend none ∧ validDoc 1 none 0 = .vtrue :=
  ⟨rfl, rfl, rfl, rfl, rfl⟩

/-- C4: the code violates the Array-erase contract.  Erasing the
existing index 0 of a one-element builder array removes the element and
*still* throws `OutOfRange` — `Array::erase` throws unconditionally on
every path. -/
theorem c4_array_erase_throws_on_existing_index :
    arrErase [Value.vnull] 0 = ([], true) := rfl

/-- C5: the code violates the Array typed-access bounds contract at the
boundary `i = size()`.  On an empty array, `at<int32_t>(0)` passes the
`size() < i` guard and reads `arr_[0]` out of bounds instead of
throwing `OutOfRange` (only `i > size()` throws, as the third conjunct
shows), and `contains<int32_t>(0)` likewise reads out of bounds instead
of returning false. -/
theorem c5_array_at_off_by_one_bounds :
    arrAt ([] : List Value) 0 .rint32 = .bub ∧
    arrContains ([] : List Value) 0 .rint32 = none ∧
    arrAt ([] : List Value) 1 .rint32 = .boutOfRange :=
  ⟨rfl, rfl, rfl⟩

/-- C1 (counterexample): the round trip fails as universally stated.
For the builder document `{"" : null, "a" : int32 1}`, the builder's
`get<int32_t>("a")` returns 1, but over the serialised bytes the
reader's `get<int32_t>("a")` never returns: the empty-key field's
node `length()` is 0, so the reader's iterator never advances past
offset 4 and the lookup loop runs forever. -/
theorem c1_cex_empty_key_wedges_reader_get :
    lookupF emptyKeyDoc [97] = some (.vint32 1) ∧
    microGet (docBytes emptyKeyDoc) [97] .rint32 99 = .gspin :=
  ⟨rfl, rfl⟩

/-! ## Byte-level decoding lemmas

These relate the reader primitives to a buffer whose suffix at a known
offset is a known byte sequence. -/

theorem byteAtI_nat (B : List Nat) (n : Nat) : byteAtI B (n : Int) = B[n]? := by
  simp [byteAtI]

theorem drop_shift {B u w : List Nat} {o j : Nat}
    (h : B.drop o = u ++ w) (hj : u.length = j) :
    B.drop (o + j) = w := by
  rw [← List.drop_drop, h, ← hj, List.drop_left]

theorem getByte_of_drop {B u : List Nat} {o : Nat} (h : B.drop o = u) (j : Nat) :
    B[o + j]? = u[j]? := by
  rw [← h, List.getElem?_drop]

theorem byteAtI_of_drop {B u : List Nat} {o : Nat} (h : B.drop o = u) :
    byteAtI B (o : Int) = u[0]? := by
  rw [byteAtI_nat, ← Nat.add_zero o, getByte_of_drop h 0]

theorem takeWhile_until_zero (k suf : List Nat) (hk : ∀ b ∈ k, b ≠ 0) :
    (k ++ 0 :: suf).takeWhile (fun b => b != 0) = k := by
  induction k with
  | nil => simp
  | cons a as ih =>
    have ha : a ≠ 0 := hk a (by simp)
    simp only [List.cons_append, List.takeWhile_cons]
    simp [ha, ih (fun b hb => hk b (by simp [hb]))]

theorem cstrAtI_of_drop {B k u : List Nat} {o : Nat}
    (h : B.drop o = k ++ 0 :: u) (hk : ∀ b ∈ k, b ≠ 0) :
    cstrAtI B (o : Int) = some k := by
  have hnn : (0 : Int) ≤ (o : Int) := Int.natCast_nonneg o
  have ht : ((o : Int)).toNat = o := Int.toNat_natCast o
  have hany : (k ++ 0 :: u).any (fun b => b == 0) = true := by simp
  simp only [cstrAtI, if_pos hnn, ht, h, hany, if_pos]
  rw [takeWhile_until_zero k u hk]

theorem writeCStr_nonzero {s : List Nat} (h : ∀ b ∈ s, b ≠ 0) :
    writeCStr s = s ++ [0] := by
  have ht : s.takeWhile (fun b => b != 0) = s := by
    induction s with
    | nil => simp
    | cons a as ih =>
      have ha : a ≠ 0 := h a (by simp)
      simp only [List.takeWhile_cons]
      simp [ha, ih (fun b hb => h b (by simp [hb]))]
  simp [writeCStr, ht]

theorem writeCStr_length (s : List Nat) : (writeCStr s).length = s.length + 1 := by
  have hle : (s.takeWhile (fun b => b != 0)).length ≤ s.length :=
    (List.takeWhile_sublist _).length_le
  simp [writeCStr]
  omega

theorem wfKey_nonzero {k : List Nat} (h : wfKey k = true) : ∀ b ∈ k, b ≠ 0 := by
  intro b hb
  simp only [wfKey, Bool.and_eq_true, List.all_eq_true] at h
  have := h.2 b hb
  simp only [Bool.and_eq_true, decide_eq_true_eq] at this
  omega

theorem wfKey_ne_nil {k : List Nat} (h : wfKey k = true) : k ≠ [] := by
  simp only [wfKey, Bool.and_eq_true] at h
  simpa using h.1

theorem readU32_of_drop {B u : List Nat} {o n : Nat}
    (h : B.drop o = le32 n ++ u) (hn : n < 4294967296) :
    readU32 B (o : Int) = some n := by
  have e0 : byteAtI B (o : Int) = some (n % 256) := by
    rw [byteAtI_of_drop h]; rfl
  have c1 : (o : Int) + 1 = ((o + 1 : Nat) : Int) := by omega
  have c2 : (o : Int) + 2 = ((o + 2 : Nat) : Int) := by omega
  have c3 : (o : Int) + 3 = ((o + 3 : Nat) : Int) := by omega
  have e1 : byteAtI B ((o : Int) + 1) = some (n / 256 % 256) := by
    rw [c1, byteAtI_nat, getByte_of_drop h 1]; rfl
  have e2 : byteAtI B ((o : Int) + 2) = some (n / 65536 % 256) := by
    rw [c2, byteAtI_nat, getByte_of_drop h 2]; rfl
  have e3 : byteAtI B ((o : Int) + 3) = some (n / 16777216 % 256) := by
    rw [c3, byteAtI_nat, getByte_of_drop h 3]; simp [le32]
  simp only [readU32, e0, e1, e2, e3, Option.bind_some, Option.some_bind, Option.pure_def,
    Option.some.injEq, bind, Option.bind]
  omega

theorem toSigned32_of_lt {n : Nat} (h : n < 2147483648) : toSigned32 n = n := by
  simp [toSigned32, h]

theorem readI32_of_drop {B u : List Nat} {o n : Nat}
    (h : B.drop o = le32 n ++ u) (hn : n < 2147483648) :
    readI32 B (o : Int) = some (n : Int) := by
  rw [readI32, readU32_of_drop h (by omega), Option.map_some']
  rw [toSigned32_of_lt hn]

theorem readI32_int32bytes {B u : List Nat} {o : Nat} {v : Int}
    (h : B.drop o = int32bytes v ++ u) (h1 : -2147483648 ≤ v) (h2 : v < 2147483648) :
    readI32 B (o : Int) = some v := by
  rw [int32bytes] at h
  have hm : (v % 4294967296).toNat < 4294967296 := by omega
  rw [readI32, readU32_of_drop h hm, Option.map_some']
  simp only [toSigned32, Option.some.injEq]
  split <;> omega

theorem le64_split (n : Nat) :
    le64 n = le32 (n % 4294967296) ++ le32 (n / 4294967296 % 4294967296) := by
  simp only [le64, le32, List.cons_append, List.nil_append, List.cons.injEq, and_true]
  omega

theorem readU64_of_drop {B u : List Nat} {o n : Nat}
    (h : B.drop o = le64 n ++ u) (hn : n < 18446744073709551616) :
    readU64 B (o : Int) = some n := by
  rw [le64_split, List.append_assoc] at h
  have hlo : readU32 B (o : Int) = some (n % 4294967296) :=
    readU32_of_drop h (by omega)
  have hshift : B.drop (o + 4) = le32 (n / 4294967296 % 4294967296) ++ u :=
    drop_shift h (by simp [le32])
  have c4 : (o : Int) + 4 = ((o + 4 : Nat) : Int) := by omega
  have hhi : readU32 B ((o : Int) + 4) = some (n / 4294967296 % 4294967296) := by
    rw [c4]; exact readU32_of_drop hshift (by omega)
  simp only [readU64, hlo, hhi, Option.bind_some, Option.some_bind, Option.pure_def,
    Option.some.injEq, bind, Option.bind]
  omega

theorem readI64_int64bytes {B u : List Nat} {o : Nat} {v : Int}
    (h : B.drop o = int64bytes v ++ u)
    (h1 : -9223372036854775808 ≤ v) (h2 : v < 9223372036854775808) :
    readI64 B (o : Int) = some v := by
  rw [int64bytes] at h
  have hm : (v % 18446744073709551616).toNat < 18446744073709551616 := by omega
  rw [readI64, readU64_of_drop h hm, Option.map_some']
  simp only [toSigned64, Option.some.injEq]
  split <;> omega

mutual

theorem valueBytes_length : ∀ v : Value, (valueBytes v).length = valueSize v
  | .vdouble b => by simp [valueBytes, valueSize, le64]
  | .vstring s => by simp [valueBytes, valueSize, le32, writeCStr_length]; omega
  | .vbool b => by simp [valueBytes, valueSize]
  | .vnull => by simp [valueBytes, valueSize]
  | .vint32 v => by simp [valueBytes, valueSize, int32bytes, le32]
  | .vint64 v => by simp [valueBytes, valueSize, int64bytes, le64]
  | .vbinary c => by simp [valueBytes, valueSize, le32]; omega
  | .vdoc fs => by
    simp [valueBytes, valueSize, le32, fieldsBytes_length fs]; omega
  | .varr es => by
    simp [valueBytes, valueSize, le32, arrFieldsBytes_length 0 es]; omega

theorem fieldsBytes_length : ∀ fs : List (List Nat × Value),
    (fieldsBytes fs).length = fieldsSize fs
  | [] => by simp [fieldsBytes, fieldsSize]
  | (k, v) :: r => by
    simp [fieldsBytes, fieldsSize, writeCStr_length, valueBytes_length v,
      fieldsBytes_length r]
    omega

theorem arrFieldsBytes_length : ∀ (i : Nat) (es : List Value),
    (arrFieldsBytes i es).length = arrFieldsSize i es
  | _, [] => by simp [arrFieldsBytes, arrFieldsSize]
  | i, v :: r => by
    simp [arrFieldsBytes, arrFieldsSize, writeCStr_length, valueBytes_length v,
      arrFieldsBytes_length (i + 1) r]
    omega

end

theorem docBytes_length (fs : List (List Nat × Value)) :
    (docBytes fs).length = docSize fs := by
  simp [docBytes, docSize, le32, fieldsBytes_length]
  omega

theorem arrBytes_length (es : List Value) :
    (arrBytes es).length = arrSize es := by
  simp [arrBytes, arrSize, le32, arrFieldsBytes_length]
  omega

/-- For every request type whose tag equals a value's wire tag, the
request is the value's own: the tag determines the decoder. -/
theorem req_of_tag_eq {T : Req} {v : Value} (h : tagOfReq T = tagByte v) :
    T = reqOf v := by
  cases T <;> cases v <;> simp_all [tagOfReq, tagByte, reqOf]

theorem tagOfReq_reqOf (v : Value) : tagOfReq (reqOf v) = tagByte v := by
  cases v <;> rfl

/-- Lemma: `Node::value<T>` throws `BadCast` as soon as the type byte differs
from `T`'s tag, before reading anything else. -/
theorem nodeValueAt_mismatch {B : List Nat} {o : Int} {t : Nat} {T : Req}
    (htag : byteAtI B o = some t) (hne : t ≠ tagOfReq T) :
    nodeValueAt B o T = .gbadCast := by
  simp [nodeValueAt, htag, hne]

/-- Decoding one serialised field: if the buffer suffix at offset `o` is
the field image `[type byte] ++ key ++ [NUL] ++ value bytes` of a
well-formed key/value pair, then the reader's `Node::key()` returns the
key, `Node::length()` returns exactly the field's byte count
`1 + key size + 1 + valueSize`, and `Node::value<T>` for the matching
request type returns the corresponding reader value. -/
theorem nodeDecode {B rest : List Nat} {o : Nat} {k : List Nat} {v : Value}
    (hB : B.drop o = tagByte v :: (k ++ 0 :: (valueBytes v ++ rest)))
    (hk : wfKey k = true) (hv : wfValue v = true) :
    cstrAtI B ((o : Int) + 1) = some k ∧
    nodeLengthI B (o : Int) = some ((2 + k.length + valueSize v : Nat) : Int) ∧
    nodeValueAt B (o : Int) (reqOf v) = .got (rvalOf v) := by
  have hknz : ∀ b ∈ k, b ≠ 0 := wfKey_nonzero hk
  have hklen : 0 < k.length := List.length_pos.mpr (wfKey_ne_nil hk)
  have h1 : B.drop (o + 1) = k ++ 0 :: (valueBytes v ++ rest) := by
    apply drop_shift (u := [tagByte v]) _ rfl
    rw [hB]; rfl
  have hpay : B.drop (o + (2 + k.length)) = valueBytes v ++ rest := by
    have h2 : B.drop (o + 1 + (k.length + 1)) = valueBytes v ++ rest := by
      apply drop_shift (u := k ++ [0]) _ (by simp)
      rw [h1]; simp
    rw [show o + 1 + (k.length + 1) = o + (2 + k.length) from by omega] at h2
    exact h2
  have htag : byteAtI B (o : Int) = some (tagByte v) := by
    rw [byteAtI_of_drop hB]; simp
  have hcstr1 : cstrAtI B ((o : Int) + 1) = some k := by
    rw [show ((o : Int) + 1) = ((o + 1 : Nat) : Int) from by omega]
    exact cstrAtI_of_drop h1 hknz
  have hbase2 : ¬((1 : Int) + (k.length : Int) + 1 = 2) := by omega
  have hoffL : ((o : Int) + (1 + (k.length : Int) + 1)) = ((o + (2 + k.length) : Nat) : Int) := by
    push_cast; ring
  have hoffV : ((o : Int) + 1 + (k.length : Int) + 1) = ((o + (2 + k.length) : Nat) : Int) := by
    push_cast; ring
  refine ⟨hcstr1, ?_, ?_⟩
  · -- Node::length()
    cases v with
    | vdouble bits =>
      simp only [nodeLengthI, hcstr1, htag, tagByte, hbase2, if_false, valueSize]
      norm_num
      omega
    | vstring s =>
      simp only [wfValue, Bool.and_eq_true, List.all_eq_true, decide_eq_true_eq] at hv
      have hm : (s.length + 1) % 4294967296 = s.length + 1 := Nat.mod_eq_of_lt (by omega)
      have hpay' : B.drop (o + (2 + k.length)) = le32 (s.length + 1) ++ (writeCStr s ++ rest) := by
        rw [hpay]; simp [valueBytes, hm, List.append_assoc]
      have hread : readI32 B ((o : Int) + (1 + (k.length : Int) + 1)) =
          some ((s.length + 1 : Nat) : Int) := by
        rw [hoffL]; exact readI32_of_drop hpay' hv.2
      simp only [nodeLengthI, hcstr1, htag, tagByte, hbase2, if_false, hread, valueSize]
      norm_num
      omega
    | vbool b =>
      simp only [nodeLengthI, hcstr1, htag, tagByte, hbase2, if_false, valueSize]
      norm_num
      omega
    | vnull =>
      simp only [nodeLengthI, hcstr1, htag, tagByte, hbase2, if_false, valueSize]
      norm_num
      omega
    | vint32 w =>
      simp only [nodeLengthI, hcstr1, htag, tagByte, hbase2, if_false, valueSize]
      norm_num
      omega
    | vint64 w =>
      simp only [nodeLengthI, hcstr1, htag, tagByte, hbase2, if_false, valueSize]
      norm_num
      omega
    | vbinary c =>
      simp only [wfValue, Bool.and_eq_true, List.all_eq_true, decide_eq_true_eq] at hv
      have hm : c.length % 4294967296 = c.length := Nat.mod_eq_of_lt (by omega)
      have hpay' : B.drop (o + (2 + k.length)) = le32 c.length ++ ((0 :: c) ++ rest) := by
        rw [hpay]; simp [valueBytes, hm, List.append_assoc]
      have hread : readI32 B ((o : Int) + (1 + (k.length : Int) + 1)) =
          some ((c.length : Nat) : Int) := by
        rw [hoffL]; exact readI32_of_drop hpay' (by omega)
      simp only [nodeLengthI, hcstr1, htag, tagByte, hbase2, if_false, hread, valueSize]
      norm_num
      omega
    | vdoc fs =>
      simp only [wfValue, Bool.and_eq_true, decide_eq_true_eq] at hv
      have hpay' : B.drop (o + (2 + k.length)) =
          le32 (4 + fieldsSize fs + 1) ++ ((fieldsBytes fs ++ [0]) ++ rest) := by
        rw [hpay]; simp [valueBytes, List.append_assoc]
      have hread : readI32 B ((o : Int) + (1 + (k.length : Int) + 1)) =
          some ((4 + fieldsSize fs + 1 : Nat) : Int) := by
        rw [hoffL]; exact readI32_of_drop hpay' (by omega)
      simp only [nodeLengthI, hcstr1, htag, tagByte, hbase2, if_false, hread, valueSize]
      norm_num
      omega
    | varr es =>
      simp only [wfValue, Bool.and_eq_true, decide_eq_true_eq] at hv
      have hpay' : B.drop (o + (2 + k.length)) =
          le32 (4 + arrFieldsSize 0 es + 1) ++ ((arrFieldsBytes 0 es ++ [0]) ++ rest) := by
        rw [hpay]; simp [valueBytes, List.append_assoc]
      have hread : readI32 B ((o : Int) + (1 + (k.length : Int) + 1)) =
          some ((4 + arrFieldsSize 0 es + 1 : Nat) : Int) := by
        rw [hoffL]; exact readI32_of_drop hpay' (by omega)
      simp only [nodeLengthI, hcstr1, htag, tagByte, hbase2, if_false, hread, valueSize]
      norm_num
      omega
  · -- Node::value<reqOf v>()
    cases v with
    | vdouble bits =>
      simp only [wfValue, decide_eq_true_eq] at hv
      have hread : readU64 B ((o : Int) + 1 + (k.length : Int) + 1) = some bits := by
        rw [hoffV]
        exact readU64_of_drop (u := rest) (by rw [hpay]; simp [valueBytes]) hv
      simp [nodeValueAt, reqOf, htag, tagByte, tagOfReq, hcstr1, hread, rvalOf]
    | vstring s =>
      simp only [wfValue, Bool.and_eq_true, List.all_eq_true, decide_eq_true_eq] at hv
      have hsnz : ∀ b ∈ s, b ≠ 0 := fun b hb => by have := hv.1 b hb; omega
      have hm : (s.length + 1) % 4294967296 = s.length + 1 := Nat.mod_eq_of_lt (by omega)
      have hstr : B.drop (o + (2 + k.length) + 4) = s ++ 0 :: rest := by
        have h4 : B.drop (o + (2 + k.length) + 4) = writeCStr s ++ rest :=
          drop_shift (u := le32 (s.length + 1)) (w := writeCStr s ++ rest)
            (by rw [hpay]; simp [valueBytes, hm, List.append_assoc]) (by simp [le32])
        rw [h4, writeCStr_nonzero hsnz]
        simp
      have hread : cstrAtI B ((o : Int) + 1 + (k.length : Int) + 1 + 4) = some s := by
        rw [show ((o : Int) + 1 + (k.length : Int) + 1 + 4) =
          ((o + (2 + k.length) + 4 : Nat) : Int) from by push_cast; ring]
        exact cstrAtI_of_drop hstr hsnz
      simp [nodeValueAt, reqOf, htag, tagByte, tagOfReq, hcstr1, hread, rvalOf]
    | vbool b =>
      have hbyte : byteAtI B ((o : Int) + 1 + (k.length : Int) + 1) =
          some (if b then 1 else 0) := by
        rw [hoffV, byteAtI_of_drop hpay]
        simp [valueBytes]
      cases b <;>
        simp [nodeValueAt, reqOf, htag, tagByte, tagOfReq, hcstr1, hbyte, rvalOf]
    | vnull =>
      simp [nodeValueAt, reqOf, htag, tagByte, tagOfReq, hcstr1, rvalOf]
    | vint32 w =>
      simp only [wfValue, Bool.and_eq_true, decide_eq_true_eq] at hv
      have hread : readI32 B ((o : Int) + 1 + (k.length : Int) + 1) = some w := by
        rw [hoffV]
        exact readI32_int32bytes (u := rest) (by rw [hpay]; simp [valueBytes]) hv.1 hv.2
      simp [nodeValueAt, reqOf, htag, tagByte, tagOfReq, hcstr1, hread, rvalOf]
    | vint64 w =>
      simp only [wfValue, Bool.and_eq_true, decide_eq_true_eq] at hv
      have hread : readI64 B ((o : Int) + 1 + (k.length : Int) + 1) = some w := by
        rw [hoffV]
        exact readI64_int64bytes (u := rest) (by rw [hpay]; simp [valueBytes]) hv.1 hv.2
      simp [nodeValueAt, reqOf, htag, tagByte, tagOfReq, hcstr1, hread, rvalOf]
    | vbinary c =>
      simp only [wfValue, Bool.and_eq_true, List.all_eq_true, decide_eq_true_eq] at hv
      have hm : c.length % 4294967296 = c.length := Nat.mod_eq_of_lt (by omega)
      have hread : readI32 B ((o : Int) + 1 + (k.length : Int) + 1) =
          some ((c.length : Nat) : Int) := by
        rw [hoffV]
        exact readI32_of_drop (u := 0 :: (c ++ rest))
          (by rw [hpay]; simp [valueBytes, hm, List.append_assoc]) (by omega)
      have htn : ((o : Int) + 1 + (k.length : Int) + 1).toNat = o + (2 + k.length) := by omega
      have hcontent : B.drop (o + (2 + k.length) + 5) = c ++ rest := by
        apply drop_shift (u := le32 c.length ++ [0]) _ (by simp [le32])
        rw [hpay]; simp [valueBytes, hm, List.append_assoc]
      simp only [nodeValueAt, reqOf, htag, tagByte, tagOfReq, hcstr1, hread, rvalOf, htn]
      norm_num
      rw [hcontent]
      exact List.take_left c rest
    | vdoc fs =>
      simp only [wfValue, Bool.and_eq_true, decide_eq_true_eq] at hv
      have hread : readI32 B ((o : Int) + 1 + (k.length : Int) + 1) =
          some ((docSize fs : Nat) : Int) := by
        rw [hoffV]
        apply readI32_of_drop (u := fieldsBytes fs ++ [0] ++ rest)
        · rw [hpay]; simp [valueBytes, docSize, List.append_assoc]
        · exact hv.2
      have htn : ((o : Int) + 1 + (k.length : Int) + 1).toNat = o + (2 + k.length) := by omega
      have hregion : B.drop (o + (2 + k.length)) = docBytes fs ++ rest := by
        rw [hpay]; simp [valueBytes, docBytes, docSize, List.append_assoc]
      simp only [nodeValueAt, reqOf, htag, tagByte, tagOfReq, hcstr1, hread, rvalOf, htn]
      norm_num
      rw [hregion, ← docBytes_length fs]
      exact List.take_left _ rest
    | varr es =>
      simp only [wfValue, Bool.and_eq_true, decide_eq_true_eq] at hv
      have hread : readI32 B ((o : Int) + 1 + (k.length : Int) + 1) =
          some ((arrSize es : Nat) : Int) := by
        rw [hoffV]
        apply readI32_of_drop (u := arrFieldsBytes 0 es ++ [0] ++ rest)
        · rw [hpay]; simp [valueBytes, arrSize, List.append_assoc]
        · exact hv.2
      have htn : ((o : Int) + 1 + (k.length : Int) + 1).toNat = o + (2 + k.length) := by omega
      have hregion : B.drop (o + (2 + k.length)) = arrBytes es ++ rest := by
        rw [hpay]; simp [valueBytes, arrBytes, arrSize, List.append_assoc]
      simp only [nodeValueAt, reqOf, htag, tagByte, tagOfReq, hcstr1, hread, rvalOf, htn]
      norm_num
      rw [hregion, ← arrBytes_length es]
      exact List.take_left _ rest

/-- The `find_if` walk of the reader's `get` over the serialised fields
of a well-formed builder document: starting at the offset where the
remaining fields begin — with the terminator and arbitrary bytes after
them — and with the end iterator at the terminator, the walk visits
exactly the field starts and the result is decided by the first key
match, as `getSpec` states. -/
theorem getLoop_spec (key : List Nat) (T : Req) :
    ∀ (fs : List (List Nat × Value)) (fuel : Nat) (o : Nat) (B post : List Nat),
    B.drop o = fieldsBytes fs ++ 0 :: post →
    wfFields fs = true →
    fs.length < fuel →
    getLoop B ((o : Int) + ((fieldsSize fs : Nat) : Int)) key T fuel (o : Int) =
      getSpec fs key T := by
  intro fs
  induction fs with
  | nil =>
    intro fuel o B post hdrop hwf hfuel
    cases fuel with
    | zero => omega
    | succ f => simp [getLoop, fieldsSize, getSpec, lookupF]
  | cons hd r ih =>
    obtain ⟨k0, v0⟩ := hd
    intro fuel o B post hdrop hwf hfuel
    simp only [wfFields, Bool.and_eq_true] at hwf
    obtain ⟨⟨hk0, hv0⟩, hwfr⟩ := hwf
    have hknz := wfKey_nonzero hk0
    have hB' : B.drop o =
        tagByte v0 :: (k0 ++ 0 :: (valueBytes v0 ++ (fieldsBytes r ++ 0 :: post))) := by
      rw [hdrop]
      simp [fieldsBytes, writeCStr_nonzero hknz, List.append_assoc]
    obtain ⟨hkey, hlen, hval⟩ := nodeDecode hB' hk0 hv0
    have htag : byteAtI B (o : Int) = some (tagByte v0) := by
      rw [byteAtI_of_drop hB']; simp
    cases fuel with
    | zero => omega
    | succ f =>
      have hpos : 0 < fieldsSize ((k0, v0) :: r) := by
        simp [fieldsSize]
      have hne : ¬((o : Int) = (o : Int) + ((fieldsSize ((k0, v0) :: r) : Nat) : Int)) := by
        omega
      by_cases hkk : k0 = key
      · subst hkk
        by_cases hT : tagByte v0 = tagOfReq T
        · have hTv : T = reqOf v0 := req_of_tag_eq hT.symm
          subst hTv
          simp [getLoop, hne, hkey, hval, getSpec, lookupF, hT]
        · have hmis : nodeValueAt B (o : Int) T = .gbadCast :=
            nodeValueAt_mismatch htag hT
          simp [getLoop, hne, hkey, hmis, getSpec, lookupF, hT]
      · have hlen0 : ¬((2 + k0.length + valueSize v0 : Nat) : Int) = 0 := by
          omega
        have hstep : B.drop (o + (2 + k0.length + valueSize v0)) =
            fieldsBytes r ++ 0 :: post := by
          apply drop_shift (u := tagByte v0 :: (k0 ++ 0 :: valueBytes v0))
            (w := fieldsBytes r ++ 0 :: post)
          · rw [hB']; simp [List.append_assoc]
          · simp [valueBytes_length v0]
            omega
        have hfuel' : r.length < f := by
          simp at hfuel
          omega
        have hrec := ih f (o + (2 + k0.length + valueSize v0)) B post hstep hwfr hfuel'
        have e1 : (o : Int) + ((2 + k0.length + valueSize v0 : Nat) : Int) =
            ((o + (2 + k0.length + valueSize v0) : Nat) : Int) := by
          push_cast; ring
        have e2 : (o : Int) + ((fieldsSize ((k0, v0) :: r) : Nat) : Int) =
            ((o + (2 + k0.length + valueSize v0) : Nat) : Int) +
              ((fieldsSize r : Nat) : Int) := by
          simp only [fieldsSize]
          push_cast; ring
        simp only [getLoop, hkey, hlen, hkk, if_neg hne, if_false, hlen0, e2]
        rw [if_neg ?_]
        · rw [e1, hrec]
          simp [getSpec, lookupF, hkk]
        · simp only [← e2]
          exact hne

/-- C1 (amended round trip): for every well-formed builder document —
keys nonempty and NUL-free at every level, string values NUL-free,
bytes below 256, integers in machine range, total serialised size below
`2^31` — and every key `k` stored in it with value `v`, the zero-copy
reader over `serialize()`'s output returns, for the request type
matching the stored wire tag, exactly the stored value (`rvalOf v`:
scalars and strings as themselves; nested documents/arrays as views
whose bytes are precisely the serialisation of the builder subtree;
binary as its content bytes), and this equals what the builder's own
`get` returns. -/
theorem c1_round_trip_wf (fs : List (List Nat × Value)) (k : List Nat) (v : Value)
    (hwf : wfFields fs = true) (hsz : docSize fs < 2147483648)
    (hlk : lookupF fs k = some v) :
    microGet (docBytes fs) k (reqOf v) (fs.length + 1) = .got (rvalOf v) ∧
    docGet fs k (reqOf v) = .bgot v := by
  constructor
  · have hdrop0 : (docBytes fs).drop 0 = le32 (docSize fs) ++ (fieldsBytes fs ++ [0]) := by
      simp [docBytes, List.append_assoc]
    have hlenr : readI32 (docBytes fs) ((0 : Nat) : Int) =
        some ((docSize fs : Nat) : Int) :=
      readI32_of_drop hdrop0 hsz
    have hlenr0 : readI32 (docBytes fs) 0 = some ((docSize fs : Nat) : Int) := by
      rw [show (0 : Int) = ((0 : Nat) : Int) from rfl]
      exact hlenr
    have hdrop4 : (docBytes fs).drop 4 = fieldsBytes fs ++ 0 :: [] := by
      have h4 := drop_shift (j := 4) (u := le32 (docSize fs)) (w := fieldsBytes fs ++ [0])
        hdrop0 (by simp [le32])
      simpa using h4
    have hspec := getLoop_spec k (reqOf v) fs (fs.length + 1) 4 (docBytes fs) []
      hdrop4 hwf (by omega)
    have e3 : ((docSize fs : Nat) : Int) - 1 =
        ((4 : Nat) : Int) + ((fieldsSize fs : Nat) : Int) := by
      simp only [docSize]
      push_cast; ring
    have e4 : (4 : Int) = ((4 : Nat) : Int) := by norm_num
    simp only [microGet, hlenr0, e3, e4, hspec]
    simp [getSpec, hlk, tagOfReq_reqOf]
  · simp [docGet, hlk, tagOfReq_reqOf]

/-- C1 witness: a concrete well-formed document `{"a" : int32 7}` whose
round trip the amended theorem settles. -/
theorem c1_round_trip_wf_witness :
    microGet (docBytes [([97], Value.vint32 7)]) [97] Req.rint32 2 =
      GetRes.got (RVal.rint32V 7) ∧
    docGet [([97], Value.vint32 7)] [97] Req.rint32 = BRes.bgot (Value.vint32 7) :=
  c1_round_trip_wf [([97], Value.vint32 7)] [97] (Value.vint32 7)
    (by decide) (by decide) rfl

/-- Lemma: `Node::value<bson::Scalar>` on a serialised well-formed field
returns exactly the Scalar classification of the stored builder value:
the double bits, the converted int32/int64, or `BadCast`. -/
theorem nodeScalarDecode {B rest : List Nat} {o : Nat} {k : List Nat} {v : Value}
    (hB : B.drop o = tagByte v :: (k ++ 0 :: (valueBytes v ++ rest)))
    (hk : wfKey k = true) (hv : wfValue v = true) :
    nodeScalarAt B (o : Int) = scalarOf v := by
  have hknz : ∀ b ∈ k, b ≠ 0 := wfKey_nonzero hk
  have hklen : 0 < k.length := List.length_pos.mpr (wfKey_ne_nil hk)
  have h1 : B.drop (o + 1) = k ++ 0 :: (valueBytes v ++ rest) := by
    apply drop_shift (u := [tagByte v]) _ rfl
    rw [hB]; rfl
  have hpay : B.drop (o + (2 + k.length)) = valueBytes v ++ rest := by
    have h2 : B.drop (o + 1 + (k.length + 1)) = valueBytes v ++ rest := by
      apply drop_shift (u := k ++ [0]) _ (by simp)
      rw [h1]; simp
    rw [show o + 1 + (k.length + 1) = o + (2 + k.length) from by omega] at h2
    exact h2
  have htag : byteAtI B (o : Int) = some (tagByte v) := by
    rw [byteAtI_of_drop hB]; simp
  have hcstr1 : cstrAtI B ((o : Int) + 1) = some k := by
    rw [show ((o : Int) + 1) = ((o + 1 : Nat) : Int) from by omega]
    exact cstrAtI_of_drop h1 hknz
  have hoffV : ((o : Int) + 1 + (k.length : Int) + 1) = ((o + (2 + k.length) : Nat) : Int) := by
    push_cast; ring
  cases v with
  | vdouble bits =>
    simp only [wfValue, decide_eq_true_eq] at hv
    have hread : readU64 B ((o : Int) + 1 + (k.length : Int) + 1) = some bits := by
      rw [hoffV]
      exact readU64_of_drop (u := rest) (by rw [hpay]; simp [valueBytes]) hv
    simp [nodeScalarAt, htag, tagByte, hcstr1, hread, scalarOf]
  | vint32 w =>
    simp only [wfValue, Bool.and_eq_true, decide_eq_true_eq] at hv
    have hread : readI32 B ((o : Int) + 1 + (k.length : Int) + 1) = some w := by
      rw [hoffV]
      exact readI32_int32bytes (u := rest) (by rw [hpay]; simp [valueBytes]) hv.1 hv.2
    simp [nodeScalarAt, htag, tagByte, hcstr1, hread, scalarOf]
  | vint64 w =>
    simp only [wfValue, Bool.and_eq_true, decide_eq_true_eq] at hv
    have hread : readI64 B ((o : Int) + 1 + (k.length : Int) + 1) = some w := by
      rw [hoffV]
      exact readI64_int64bytes (u := rest) (by rw [hpay]; simp [valueBytes]) hv.1 hv.2
    simp [nodeScalarAt, htag, tagByte, hcstr1, hread, scalarOf]
  | vstring s => simp [nodeScalarAt, htag, tagByte, hcstr1, scalarOf]
  | vbool b => simp [nodeScalarAt, htag, tagByte, hcstr1, scalarOf]
  | vnull => simp [nodeScalarAt, htag, tagByte, hcstr1, scalarOf]
  | vbinary c => simp [nodeScalarAt, htag, tagByte, hcstr1, scalarOf]
  | vdoc fs => simp [nodeScalarAt, htag, tagByte, hcstr1, scalarOf]
  | varr es => simp [nodeScalarAt, htag, tagByte, hcstr1, scalarOf]

/-- Lemma: `size_t(i)` of a nonnegative in-range index is the index itself. -/
theorem sizeTOf_natCast {i : Nat} (h : i < 18446744073709551616) :
    sizeTOf (i : Int) = i := by
  simp only [sizeTOf]
  omega

/-- C6: the Scalar wildcard.  For a stored value `v` — under key `k` of
a builder document, at index `i` of a builder array, or as a serialised
wire field read back through `Node::value<bson::Scalar>` — the Scalar
request returns the stored numeric value converted to a double exactly
when the wire tag is double (0x01), int32 (0x10) or int64 (0x12), and
throws `BadCast` for every other wire tag. -/
theorem c6_scalar_wildcard (fs : List (List Nat × Value)) (k : List Nat) (v : Value)
    (a : List Value) (i : Nat)
    (hk : wfKey k = true) (hv : wfValue v = true)
    (hlk : lookupF fs k = some v) (ha : a[i]? = some v)
    (hi : i < 18446744073709551616) :
    docGetScalar fs k = scalarOf v ∧
    arrAtScalar a (i : Int) = scalarOf v ∧
    nodeScalarAt (fieldsBytes [(k, v)]) 0 = scalarOf v ∧
    ((∃ b, scalarOf v = SRes.sbits b) ↔
      (tagByte v = 1 ∨ tagByte v = 16 ∨ tagByte v = 18)) ∧
    (¬(tagByte v = 1 ∨ tagByte v = 16 ∨ tagByte v = 18) → scalarOf v = SRes.sbadCast) := by
  refine ⟨?_, ?_, ?_, ?_, ?_⟩
  · simp [docGetScalar, hlk]
  · have hil : i < a.length := by
      by_contra hle
      rw [List.getElem?_eq_none (by omega)] at ha
      exact Option.noConfusion ha
    rw [arrAtScalar, sizeTOf_natCast hi, if_neg (by omega), ha]
  · have hB : (fieldsBytes [(k, v)]).drop 0 =
        tagByte v :: (k ++ 0 :: (valueBytes v ++ [])) := by
      simp [fieldsBytes, writeCStr_nonzero (wfKey_nonzero hk), List.append_assoc]
    have := nodeScalarDecode hB hk hv
    simpa using this
  · cases v <;> simp [scalarOf, tagByte]
  · cases v <;> simp [scalarOf, tagByte]

/-- C6 witness: document `{"a" : int32 5}`, array `[int32 5]`, and the
serialised field for key "a": all three Scalar requests return the bit
pattern of `5.0`. -/
theorem c6_scalar_wildcard_witness :
    docGetScalar [([97], Value.vint32 5)] [97] = SRes.sbits 4617315517961601024 ∧
    arrAtScalar [Value.vint32 5] 0 = SRes.sbits 4617315517961601024 ∧
    nodeScalarAt (fieldsBytes [([97], Value.vint32 5)]) 0 =
      SRes.sbits 4617315517961601024 := by
  have h := c6_scalar_wildcard [([97], Value.vint32 5)] [97] (Value.vint32 5)
    [Value.vint32 5] 0 (by decide) (by decide) rfl rfl (by decide)
  refine ⟨?_, ?_, ?_⟩
  · rw [h.1]; rfl
  · have := h.2.1
    rw [show ((0 : Nat) : Int) = (0 : Int) from rfl] at this
    rw [this]; rfl
  · rw [h.2.2.1]; rfl

/-! ## The ordered-map invariant of the builder document (C10) -/

theorem keyLtb_irrefl : ∀ k : List Nat, keyLtb k k = false
  | [] => rfl
  | a :: as => by simp [keyLtb, keyLtb_irrefl as]

theorem keyLtb_cons_iff {a b : Nat} {as bs : List Nat} :
    keyLtb (a :: as) (b :: bs) = true ↔ a < b ∨ (a = b ∧ keyLtb as bs = true) := by
  simp only [keyLtb]
  split_ifs with h1 h2
  · simp [h1]
  · simp
    omega
  · have hab : a = b := by omega
    simp [hab, Nat.lt_irrefl]

theorem keyLtb_trans : ∀ a b c : List Nat,
    keyLtb a b = true → keyLtb b c = true → keyLtb a c = true := by
  intro a
  induction a with
  | nil =>
    intro b c h1 h2
    cases b with
    | nil => simp [keyLtb] at h1
    | cons b0 bs =>
      cases c with
      | nil => simp [keyLtb] at h2
      | cons c0 cs => simp [keyLtb]
  | cons a0 as ih =>
    intro b c h1 h2
    cases b with
    | nil => simp [keyLtb] at h1
    | cons b0 bs =>
      cases c with
      | nil => simp [keyLtb] at h2
      | cons c0 cs =>
        rw [keyLtb_cons_iff] at h1 h2 ⊢
        rcases h1 with h1 | ⟨h1e, h1r⟩
        · rcases h2 with h2 | ⟨h2e, h2r⟩
          · exact Or.inl (by omega)
          · exact Or.inl (by omega)
        · rcases h2 with h2 | ⟨h2e, h2r⟩
          · exact Or.inl (by omega)
          · exact Or.inr ⟨by omega, ih bs cs h1r h2r⟩

theorem keyLtb_connex : ∀ a b : List Nat,
    keyLtb a b = false → keyLtb b a = false → a = b := by
  intro a
  induction a with
  | nil =>
    intro b h1 _
    cases b with
    | nil => rfl
    | cons b0 bs => simp [keyLtb] at h1
  | cons a0 as ih =>
    intro b h1 h2
    cases b with
    | nil => simp [keyLtb] at h2
    | cons b0 bs =>
      have e1 : ¬(a0 < b0 ∨ (a0 = b0 ∧ keyLtb as bs = true)) := by
        rw [← keyLtb_cons_iff, h1]; simp
      have e2 : ¬(b0 < a0 ∨ (b0 = a0 ∧ keyLtb bs as = true)) := by
        rw [← keyLtb_cons_iff, h2]; simp
      push_neg at e1 e2
      have hab : a0 = b0 := by omega
      have hf1 : keyLtb as bs = false := by
        have := e1.2 hab
        simpa using this
      have hf2 : keyLtb bs as = false := by
        have := e2.2 hab.symm
        simpa using this
      rw [hab, ih bs hf1 hf2]

/-- A key strictly below every key of the list is absent from it. -/
theorem lookupF_eq_none_of_lt {fs : List (List Nat × Value)} {q : List Nat}
    (h : ∀ p ∈ fs, keyLtb q p.1 = true) : lookupF fs q = none := by
  induction fs with
  | nil => rfl
  | cons p r ih =>
    obtain ⟨k0, v0⟩ := p
    have hne : k0 ≠ q := by
      intro he
      have := h (k0, v0) (by simp)
      simp only at this
      rw [he] at this
      rw [keyLtb_irrefl q] at this
      exact Bool.noConfusion this
    simp only [lookupF, if_neg hne]
    exact ih (fun p hp => h p (by simp [hp]))

/-- Strictly key-sorted association lists with the same lookup function
are equal: the `std::map` state of a builder document is determined by
its key-to-value content. -/
theorem sorted_lookup_ext : ∀ fs1 fs2 : List (List Nat × Value),
    List.Pairwise (fun p q => keyLtb p.1 q.1 = true) fs1 →
    List.Pairwise (fun p q => keyLtb p.1 q.1 = true) fs2 →
    (∀ q, lookupF fs1 q = lookupF fs2 q) → fs1 = fs2 := by
  intro fs1
  induction fs1 with
  | nil =>
    intro fs2 _ _ hext
    cases fs2 with
    | nil => rfl
    | cons p t2 =>
      obtain ⟨k2, v2⟩ := p
      have := hext k2
      simp [lookupF] at this
  | cons p t1 ih =>
    obtain ⟨k1, v1⟩ := p
    intro fs2 h1 h2 hext
    cases fs2 with
    | nil =>
      have := hext k1
      simp [lookupF] at this
    | cons q t2 =>
      obtain ⟨k2, v2⟩ := q
      simp only [List.pairwise_cons] at h1 h2
      have hkeq : k1 = k2 := by
        by_contra hne
        rcases hlt : keyLtb k1 k2 with _ | _
        · rcases hgt : keyLtb k2 k1 with _ | _
          · exact hne (keyLtb_connex k1 k2 hlt hgt)
          · -- k2 < k1 : k2 is in fs2 but below everything in fs1
            have habs : lookupF ((k1, v1) :: t1) k2 = none := by
              apply lookupF_eq_none_of_lt
              intro r hr
              simp only [List.mem_cons] at hr
              rcases hr with hr | hr
              · rw [hr]; exact hgt
              · exact keyLtb_trans k2 k1 r.1 hgt (h1.1 r hr)
            have := hext k2
            rw [habs] at this
            simp [lookupF] at this
        · -- k1 < k2 : k1 is in fs1 but below everything in fs2
          have habs : lookupF ((k2, v2) :: t2) k1 = none := by
            apply lookupF_eq_none_of_lt
            intro r hr
            simp only [List.mem_cons] at hr
            rcases hr with hr | hr
            · rw [hr]; exact hlt
            · exact keyLtb_trans k1 k2 r.1 hlt (h2.1 r hr)
          have := hext k1
          rw [habs] at this
          simp [lookupF] at this
      subst hkeq
      have hveq : v1 = v2 := by
        have := hext k1
        simp [lookupF] at this
        exact this
      subst hveq
      have htail : ∀ q, lookupF t1 q = lookupF t2 q := by
        intro q
        by_cases hq : q = k1
        · subst hq
          rw [lookupF_eq_none_of_lt, lookupF_eq_none_of_lt]
          · intro r hr
            exact h2.1 r hr
          · intro r hr
            exact h1.1 r hr
        · have := hext q
          have hne : ¬(k1 = q) := fun he => hq he.symm
          simp only [lookupF, if_neg hne] at this
          exact this
      rw [ih t2 h1.2 h2.2 htail]

/-- A member of `setF fs k v` is either an original member or carries
the inserted key. -/
theorem setF_mem : ∀ (fs : List (List Nat × Value)) (k : List Nat) (v : Value),
    ∀ p ∈ setF fs k v, p ∈ fs ∨ p.1 = k := by
  intro fs k v
  induction fs with
  | nil =>
    intro p hp
    simp [setF] at hp
    simp [hp]
  | cons q r ih =>
    obtain ⟨k0, v0⟩ := q
    intro p hp
    simp only [setF] at hp
    split_ifs at hp with hlt hgt
    · rcases List.mem_cons.mp hp with hp | hp
      · simp [hp]
      · simp [hp]
    · rcases List.mem_cons.mp hp with hp | hp
      · simp [hp]
      · rcases ih p hp with hh | hh
        · simp [hh]
        · simp [hh]
    · rcases List.mem_cons.mp hp with hp | hp
      · -- the replaced entry keeps the (equal) stored key
        have hk0 : k0 = k := keyLtb_connex k0 k (by simpa using hgt) (by simpa using hlt)
        simp [hp, hk0]
      · simp [hp]

/-- Lemma: `Document::set` preserves the strictly-sorted invariant of the
builder's `std::map`. -/
theorem setF_pairwise : ∀ (fs : List (List Nat × Value)) (k : List Nat) (v : Value),
    List.Pairwise (fun p q => keyLtb p.1 q.1 = true) fs →
    List.Pairwise (fun p q => keyLtb p.1 q.1 = true) (setF fs k v) := by
  intro fs k v
  induction fs with
  | nil =>
    intro _
    simp [setF]
  | cons q r ih =>
    obtain ⟨k0, v0⟩ := q
    intro h
    simp only [List.pairwise_cons] at h
    simp only [setF]
    split_ifs with hlt hgt
    · refine List.Pairwise.cons ?_ (List.Pairwise.cons h.1 h.2)
      intro p hp
      rcases List.mem_cons.mp hp with hp | hp
      · rw [hp]; exact hlt
      · exact keyLtb_trans k k0 p.1 hlt (h.1 p hp)
    · refine List.Pairwise.cons ?_ (ih h.2)
      intro p hp
      rcases setF_mem r k v p hp with hh | hh
      · exact h.1 p hh
      · rw [hh]; exact hgt
    · exact List.Pairwise.cons h.1 h.2

/-- C10: builder-document serialisation is deterministic in the
key-to-value mapping.  The builder's container is an ordered map whose
strictly-ascending key invariant `set` preserves from the empty
document, and any two documents satisfying the invariant with equal
key-to-value content are the same container state and serialise to
byte-identical output — regardless of the order of the `set` calls that
built them. -/
theorem c10_serialization_deterministic (d1 d2 : List (List Nat × Value))
    (h1 : List.Pairwise (fun p q => keyLtb p.1 q.1 = true) d1)
    (h2 : List.Pairwise (fun p q => keyLtb p.1 q.1 = true) d2)
    (hext : ∀ q, lookupF d1 q = lookupF d2 q) :
    docBytes d1 = docBytes d2 ∧ d1 = d2 := by
  have he := sorted_lookup_ext d1 d2 h1 h2 hext
  exact ⟨by rw [he], he⟩

/-- C10 witness: `{"a": int32 1, "b": int32 2}` built in the two
opposite insertion orders serialises to byte-identical output. -/
theorem c10_serialization_deterministic_witness :
    docBytes (setF (setF [] [97] (Value.vint32 1)) [98] (Value.vint32 2)) =
      docBytes (setF (setF [] [98] (Value.vint32 2)) [97] (Value.vint32 1)) ∧
    setF (setF [] [97] (Value.vint32 1)) [98] (Value.vint32 2) =
      setF (setF [] [98] (Value.vint32 2)) [97] (Value.vint32 1) :=
  c10_serialization_deterministic _ _
    (setF_pairwise _ _ _ (setF_pairwise _ _ _ (List.Pairwise.nil)))
    (setF_pairwise _ _ _ (setF_pairwise _ _ _ (List.Pairwise.nil)))
    (fun _ => rfl)

end MiniBson


